import Mathlib

/-!
Shallow embedding of a Rust implementation of Conway's Game of Life
(`src/main.rs`).  Cell coordinates are `u64` in the source; we model them as
`Nat` together with the explicit bound `MAXC = 2 ^ 64 - 1`.  Every arithmetic
step of the source performs its own bounds check before adding or
subtracting, so modelling with `Nat` is faithful as long as we verify the
range discipline (see the safety theorems below).  The `HashSet<Cell>` of the
source is modelled as `Finset Cell`; iteration order over the hash set is
made explicit as a `List Cell` argument so that order-independence can be
stated and proved.
-/

namespace ConwayGOL

/-- Rust: `type Cell = (CellCoordinate, CellCoordinate)` with
`type CellCoordinate = u64`; the coordinate type is modelled as `Nat`
(written out, rather than through an alias, so that arithmetic automation
sees it directly). -/
abbrev Cell := Nat × Nat

/-- The value `u64::MAX`; `u64::MIN` is `0`. -/
def MAXC : Nat := 2 ^ 64 - 1

/-- Rust `start_value`: clip `val - 1` at the type minimum. -/
def start_value (val : Nat) : Nat :=
  if val = 0 then val else val - 1

/-- Rust `end_value`: clip `val + 1` at the type maximum. -/
def end_value (val : Nat) : Nat :=
  if val = MAXC then val else val + 1

/-- Rust `struct NeighborIterator`. -/
structure NeighborIterator where
  first_col : Nat
  current_cell : Cell
  end_neighbor : Cell
  current_neighbor : Option Cell
deriving DecidableEq, Repr

/-- Rust `NeighborIterator::new`. -/
def NeighborIterator.new : Cell → NeighborIterator
  | (row, col) =>
    { first_col := start_value col
      current_cell := (row, col)
      end_neighbor := (end_value row, end_value col)
      current_neighbor := some (start_value row, start_value col) }

/-- Rust `get_next_neighbor`. -/
def get_next_neighbor (iter : NeighborIterator) : Option Cell :=
  match iter.current_neighbor with
  | none => none
  | some current_neighbor =>
    if current_neighbor = iter.end_neighbor then none
    else
      let end_col := iter.end_neighbor.2
      let cur_row := current_neighbor.1
      let cur_col := current_neighbor.2
      if cur_col = end_col then some (cur_row + 1, iter.first_col)
      else some (cur_row, cur_col + 1)

/-- Rust `impl Iterator for NeighborIterator { fn next }`: returns the yielded
item together with the successor state (`&mut self` made explicit). -/
def NeighborIterator.next (it : NeighborIterator) : Option Cell × NeighborIterator :=
  let current_neighbor := it.current_neighbor
  let it1 : NeighborIterator := { it with current_neighbor := get_next_neighbor it }
  let it2 : NeighborIterator :=
    if it1.current_neighbor = some it1.current_cell then
      { it1 with current_neighbor := get_next_neighbor it1 }
    else it1
  (current_neighbor, it2)

/-- Driving a `NeighborIterator` to exhaustion, collecting the yielded cells.
The fuel bound `10` used below strictly exceeds the at most `9` calls any run
can make before `next` returns `none` (the enumeration rectangle holds at
most nine positions and each call consumes at least one). -/
def collectNeighbors : Nat → NeighborIterator → List Cell
  | 0, _ => []
  | fuel + 1, it =>
    match it.next with
    | (none, _) => []
    | (some c, it2) => c :: collectNeighbors fuel it2

/-- All items yielded by `NeighborIterator::new cell` iterated to exhaustion,
in order. -/
def neighborsList (cell : Cell) : List Cell :=
  collectNeighbors 10 (NeighborIterator.new cell)

/-- The successive internal states of the iterator: state `0` is the freshly
constructed iterator, state `n + 1` is the state after one more `next` call. -/
def iterStates (cell : Cell) : Nat → NeighborIterator
  | 0 => NeighborIterator.new cell
  | n + 1 => ((iterStates cell n).next).2

/-- Rust `struct NeighborStatus`. -/
structure NeighborStatus where
  alive_count : Nat
  dead_neighbors : List Cell
deriving DecidableEq, Repr

/-- Rust `bring_cell_back_to_life`: count the alive neighbors of a dead cell
and report whether the count is exactly 3. -/
def bring_cell_back_to_life (cell : Cell) (current_gen : Finset Cell) : Bool :=
  ((neighborsList cell).foldl
    (fun alive neighbor => if neighbor ∈ current_gen then alive + 1 else alive) 0) == 3

/-- Rust `get_neighbors_status`: fold over the neighbor iterator, counting
alive neighbors and collecting dead ones in order. -/
def get_neighbors_status (cell : Cell) (current_gen : Finset Cell) : NeighborStatus :=
  (neighborsList cell).foldl
    (fun neighbor_status neighbor =>
      if neighbor ∈ current_gen then
        { neighbor_status with alive_count := neighbor_status.alive_count + 1 }
      else
        { neighbor_status with
            dead_neighbors := neighbor_status.dead_neighbors ++ [neighbor] })
    { alive_count := 0, dead_neighbors := [] }

/-- A total order on cells, used only to extract one concrete iteration order
from a `Finset Cell` (the source's `HashSet` iterates in an unspecified
order; order-independence is proved below). -/
def cellLE (a b : Cell) : Prop :=
  a.1 < b.1 ∨ (a.1 = b.1 ∧ a.2 ≤ b.2)

instance : DecidableRel cellLE := fun a b => by unfold cellLE; infer_instance

instance : IsTrans Cell cellLE := ⟨by intro a b c hab hbc; unfold cellLE at *; omega⟩

instance : IsAntisymm Cell cellLE := ⟨by
  intro a b hab hba
  unfold cellLE at hab hba
  obtain ⟨h1, h2⟩ : a.1 = b.1 ∧ a.2 = b.2 := by omega
  exact Prod.ext_iff.mpr ⟨h1, h2⟩⟩

instance : IsTotal Cell cellLE := ⟨by intro a b; unfold cellLE; omega⟩

/-- The elements of a multiset of cells listed in `cellLE` order (a concrete,
executable replacement for the unspecified `HashSet` iteration order). -/
def sortedCells (s : Multiset Cell) : List Cell :=
  Quot.liftOn s (fun l => l.insertionSort cellLE) (fun _ _ h =>
    List.eq_of_perm_of_sorted
      ((List.perm_insertionSort _ _).trans (h.trans (List.perm_insertionSort _ _).symm))
      (List.sorted_insertionSort _ _) (List.sorted_insertionSort _ _))

/-- The body of the `for cell in current_gen.iter()` loop of Rust
`compute_next_gen`: insert `cell` into `next` when its alive-neighbor count
is 2 or 3, then insert every dead neighbor that `bring_cell_back_to_life`
accepts. -/
def advanceCellStep (current_gen : Finset Cell) (next : Finset Cell) (cell : Cell) : Finset Cell :=
  let neighbors := get_neighbors_status cell current_gen
  let alive := neighbors.alive_count
  let next1 := if alive = 2 ∨ alive = 3 then insert cell next else next
  neighbors.dead_neighbors.foldl
    (fun next p =>
      if bring_cell_back_to_life p current_gen then insert p next else next)
    next1

/-- Rust `compute_next_gen`, with the iteration order of the source's
`current_gen.iter()` made explicit as the list `order`. -/
def compute_next_gen_order (current_gen : Finset Cell) (order : List Cell) : Finset Cell :=
  order.foldl (advanceCellStep current_gen) ∅

/-- Rust `compute_next_gen` run in one canonical iteration order; by
order-independence (proved below) any order gives the same set. -/
def compute_next_gen (current_gen : Finset Cell) : Finset Cell :=
  compute_next_gen_order current_gen (sortedCells current_gen.val)

/-- Rust `struct GOLGenerationIterator`. -/
structure GOLGenerationIterator where
  current_gen : Finset Cell

/-- Rust `GOLGenerationIterator::new`: collect the seed vector into a set. -/
def GOLGenerationIterator.new (seed : List Cell) : GOLGenerationIterator :=
  { current_gen := seed.toFinset }

/-- Rust `impl Iterator for GOLGenerationIterator { fn next }`: yields the
current generation and replaces it with the next one. -/
def GOLGenerationIterator.next (it : GOLGenerationIterator) :
    Option (Finset Cell) × GOLGenerationIterator :=
  let next_gen := compute_next_gen it.current_gen
  (some it.current_gen, { current_gen := next_gen })

/-- The successive internal states of the generation iterator. -/
def golIterStates (seed : List Cell) : Nat → GOLGenerationIterator
  | 0 => GOLGenerationIterator.new seed
  | n + 1 => ((golIterStates seed n).next).2

/-- The item yielded by the `n`-th `next` call of the generation iterator. -/
def golYield (seed : List Cell) (n : Nat) : Option (Finset Cell) :=
  ((golIterStates seed n).next).1

/-- The seed of `main`. -/
def seed : List Cell := [(1, 3), (2, 2), (2, 3), (2, 4), (3, 2), (3, 4), (4, 3)]

/-- The number of neighbors of `cell` that are members of `S`, as produced by
the Neighbor Enumerator. -/
def aliveNeighborCount (cell : Cell) (S : Finset Cell) : Nat :=
  (neighborsList cell).countP (fun n => decide (n ∈ S))

/-- What one live cell `y` contributes to the next generation, as decided by
`advanceCellStep`: `y` itself when its alive count is 2 or 3, and any of its
dead neighbors whose own alive count is exactly 3. -/
def cellContrib (S : Finset Cell) (y x : Cell) : Prop :=
  (x = y ∧ (aliveNeighborCount y S = 2 ∨ aliveNeighborCount y S = 3)) ∨
  (x ∈ neighborsList y ∧ x ∉ S ∧ aliveNeighborCount x S = 3)

/-- The in-range condition on an iterator state: if a neighbor is pending,
it lies inside the enumeration rectangle bounded by `end_value` on each axis
(and at or after `start_value c` on the column axis).  This is the condition
that makes the `+ 1` steps of `get_next_neighbor` and the `- 1` / `+ 1`
steps of `start_value` / `end_value` free of `u64` underflow and overflow. -/
def stateInRange (r c : Nat) (it : NeighborIterator) : Prop :=
  match it.current_neighbor with
  | none => True
  | some p => p.1 ≤ end_value r ∧ start_value c ≤ p.2 ∧ p.2 ≤ end_value c

instance (r c : Nat) (it : NeighborIterator) : Decidable (stateInRange r c it) :=
  match it with
  | ⟨_, _, _, none⟩ => isTrue trivial
  | ⟨_, _, _, some _⟩ => inferInstanceAs (Decidable (_ ∧ _ ∧ _))

/-- A termination measure for the neighbor iterator: how many `next` calls
can still yield an item.  Used to prove that the fuel `10` in
`neighborsList` never truncates a run. -/
def iterMeasure (it : NeighborIterator) : Nat :=
  match it.current_neighbor with
  | none => 0
  | some p => 1 + (it.end_neighbor.1 - p.1) * 3 + (it.end_neighbor.2 - p.2)


/-!  ## Helper lemmas  -/

theorem start_value_le (v : Nat) : start_value v ≤ v := by
  unfold start_value; split <;> omega

theorem le_end_value (v : Nat) : v ≤ end_value v := by
  unfold end_value; split <;> omega

theorem start_value_of_pos {v : Nat} (h : 0 < v) : start_value v = v - 1 := by
  unfold start_value; split <;> omega

theorem end_value_of_lt {v : Nat} (h : v < MAXC) : end_value v = v + 1 := by
  unfold end_value; split <;> omega

theorem end_value_le_max {v : Nat} (h : v ≤ MAXC) : end_value v ≤ MAXC := by
  unfold end_value; split <;> omega

theorem count_foldl (S : Finset Cell) (l : List Cell) (acc : Nat) :
    l.foldl (fun alive neighbor => if neighbor ∈ S then alive + 1 else alive) acc
      = acc + l.countP (fun n => decide (n ∈ S)) := by
  induction l generalizing acc with
  | nil => simp
  | cons x xs ih =>
    by_cases hx : x ∈ S <;> simp [hx, ih, List.countP_cons] <;> omega

theorem bring_cell_back_iff (cell : Cell) (S : Finset Cell) :
    bring_cell_back_to_life cell S = true ↔ aliveNeighborCount cell S = 3 := by
  unfold bring_cell_back_to_life aliveNeighborCount
  rw [count_foldl]
  simp

theorem status_foldl (S : Finset Cell) (l : List Cell) (st : NeighborStatus) :
    (l.foldl
      (fun neighbor_status neighbor =>
        if neighbor ∈ S then
          { neighbor_status with alive_count := neighbor_status.alive_count + 1 }
        else
          { neighbor_status with
              dead_neighbors := neighbor_status.dead_neighbors ++ [neighbor] })
      st)
      = { alive_count := st.alive_count + l.countP (fun n => decide (n ∈ S)),
          dead_neighbors := st.dead_neighbors ++ l.filter (fun n => decide (n ∉ S)) } := by
  induction l generalizing st with
  | nil => simp
  | cons x xs ih =>
    by_cases hx : x ∈ S <;>
      simp [hx, ih, List.countP_cons, List.filter_cons] <;> omega

theorem get_neighbors_status_eq (cell : Cell) (S : Finset Cell) :
    get_neighbors_status cell S =
      { alive_count := aliveNeighborCount cell S,
        dead_neighbors := (neighborsList cell).filter (fun n => decide (n ∉ S)) } := by
  unfold get_neighbors_status aliveNeighborCount
  rw [status_foldl]
  simp

theorem mem_dead_foldl (S : Finset Cell) (l : List Cell) (acc : Finset Cell) (x : Cell) :
    (x ∈ l.foldl
      (fun next p => if bring_cell_back_to_life p S then insert p next else next) acc)
      ↔ x ∈ acc ∨ (x ∈ l ∧ bring_cell_back_to_life x S = true) := by
  induction l generalizing acc with
  | nil => simp
  | cons d ds ih =>
    rw [List.foldl_cons, ih]
    by_cases hd : bring_cell_back_to_life d S = true <;>
      by_cases hx : x = d <;>
        simp [hd, hx, Finset.mem_insert] <;> tauto

theorem mem_advanceCellStep (S next : Finset Cell) (cell x : Cell) :
    x ∈ advanceCellStep S next cell ↔ x ∈ next ∨ cellContrib S cell x := by
  simp only [advanceCellStep, get_neighbors_status_eq, cellContrib]
  rw [mem_dead_foldl]
  simp only [List.mem_filter, decide_eq_true_eq, bring_cell_back_iff]
  by_cases h23 : aliveNeighborCount cell S = 2 ∨ aliveNeighborCount cell S = 3 <;>
    by_cases hx : x = cell <;>
      simp [h23, hx, Finset.mem_insert] <;> tauto

theorem mem_foldl_advance (S : Finset Cell) (order : List Cell) (acc : Finset Cell) (x : Cell) :
    x ∈ order.foldl (advanceCellStep S) acc ↔
      x ∈ acc ∨ ∃ y ∈ order, cellContrib S y x := by
  induction order generalizing acc with
  | nil => simp
  | cons z zs ih =>
    rw [List.foldl_cons, ih, mem_advanceCellStep]
    simp only [List.mem_cons]
    constructor
    · rintro ((hacc | hz) | ⟨y, hy, hC⟩)
      · exact Or.inl hacc
      · exact Or.inr ⟨z, Or.inl rfl, hz⟩
      · exact Or.inr ⟨y, Or.inr hy, hC⟩
    · rintro (hacc | ⟨y, (rfl | hy), hC⟩)
      · exact Or.inl (Or.inl hacc)
      · exact Or.inl (Or.inr hC)
      · exact Or.inr ⟨y, hy, hC⟩

theorem mem_sortedCells (s : Multiset Cell) (x : Cell) :
    x ∈ sortedCells s ↔ x ∈ s := by
  refine Quot.inductionOn s (fun l => ?_)
  change x ∈ l.insertionSort cellLE ↔ _
  rw [(List.perm_insertionSort cellLE l).mem_iff]
  exact (Multiset.mem_coe).symm

theorem next_fields (it : NeighborIterator) :
    ((it.next).2).first_col = it.first_col ∧
    ((it.next).2).current_cell = it.current_cell ∧
    ((it.next).2).end_neighbor = it.end_neighbor := by
  simp only [NeighborIterator.next]
  split <;> simp

theorem get_next_in_range (r c : Nat) (it : NeighborIterator)
    (hen : it.end_neighbor = (end_value r, end_value c))
    (hfc : it.first_col = start_value c)
    (h : stateInRange r c it) :
    ∀ q, get_next_neighbor it = some q →
      q.1 ≤ end_value r ∧ start_value c ≤ q.2 ∧ q.2 ≤ end_value c := by
  intro q hq
  obtain ⟨fc, cc, en, cur⟩ := it
  simp only at hen hfc
  subst hen hfc
  cases cur with
  | none => simp [get_next_neighbor] at hq
  | some p =>
    obtain ⟨a, b⟩ := p
    simp only [stateInRange] at h
    simp only [get_next_neighbor] at hq
    have hsc : start_value c ≤ c := start_value_le c
    have hce : c ≤ end_value c := le_end_value c
    by_cases h1 : (a, b) = ((end_value r, end_value c) : Cell)
    · rw [if_pos h1] at hq
      exact absurd hq (by simp)
    · rw [if_neg h1] at hq
      have h1' : ¬(a = end_value r ∧ b = end_value c) := fun hh => h1 (Prod.ext_iff.mpr hh)
      by_cases h2 : b = ((end_value r, end_value c) : Cell).2
      · rw [if_pos h2] at hq
        simp only at h2
        injection hq with hq'
        subst hq'
        simp only
        refine ⟨by omega, by omega, by omega⟩
      · rw [if_neg h2] at hq
        simp only at h2
        injection hq with hq'
        subst hq'
        simp only
        refine ⟨by omega, by omega, by omega⟩

theorem stateInRange_update (r c : Nat) (it : NeighborIterator)
    (hen : it.end_neighbor = (end_value r, end_value c))
    (hfc : it.first_col = start_value c)
    (h : stateInRange r c it) :
    stateInRange r c { it with current_neighbor := get_next_neighbor it } := by
  have H := get_next_in_range r c it hen hfc h
  cases hg : get_next_neighbor it with
  | none => simp [stateInRange, hg]
  | some q =>
    simp only [stateInRange, hg]
    exact H q hg

theorem stateInRange_next (r c : Nat) (it : NeighborIterator)
    (hen : it.end_neighbor = (end_value r, end_value c))
    (hfc : it.first_col = start_value c)
    (h : stateInRange r c it) :
    stateInRange r c (it.next).2 := by
  have h1 := stateInRange_update r c it hen hfc h
  simp only [NeighborIterator.next]
  split
  · exact stateInRange_update r c _ (by simpa using hen) (by simpa using hfc) h1
  · exact h1

theorem iterStates_fields (r c : Nat) (n : Nat) :
    (iterStates (r, c) n).first_col = start_value c ∧
    (iterStates (r, c) n).current_cell = (r, c) ∧
    (iterStates (r, c) n).end_neighbor = (end_value r, end_value c) := by
  induction n with
  | zero => simp [iterStates, NeighborIterator.new]
  | succ k ih =>
    have h := next_fields (iterStates (r, c) k)
    show ((iterStates (r, c) k).next.2).first_col = _ ∧
      ((iterStates (r, c) k).next.2).current_cell = _ ∧
      ((iterStates (r, c) k).next.2).end_neighbor = _
    rw [h.1, h.2.1, h.2.2]
    exact ih

theorem iterStates_in_range (r c : Nat) (n : Nat) :
    stateInRange r c (iterStates (r, c) n) := by
  induction n with
  | zero =>
    have h1 : start_value r ≤ r := start_value_le r
    have h2 : r ≤ end_value r := le_end_value r
    have h3 : start_value c ≤ c := start_value_le c
    have h4 : c ≤ end_value c := le_end_value c
    simp only [iterStates, NeighborIterator.new, stateInRange]
    exact ⟨by omega, le_refl _, by omega⟩
  | succ k ih =>
    have hf := iterStates_fields r c k
    exact stateInRange_next r c _ hf.2.2 hf.1 ih

theorem end_sub_start_le (v : Nat) : end_value v - start_value v ≤ 2 := by
  unfold start_value end_value
  split <;> split <;> omega

theorem collect_cons {it : NeighborIterator} {c : Cell} {it2 : NeighborIterator}
    (h : it.next = (some c, it2)) (fuel : Nat) :
    collectNeighbors (fuel + 1) it = c :: collectNeighbors fuel it2 := by
  simp [collectNeighbors, h]

theorem measure_update_lt (r c : Nat) (it : NeighborIterator)
    (hen : it.end_neighbor = (end_value r, end_value c))
    (hfc : it.first_col = start_value c)
    (h : stateInRange r c it) (p : Cell) (hp : it.current_neighbor = some p) :
    iterMeasure { it with current_neighbor := get_next_neighbor it } < iterMeasure it := by
  obtain ⟨fc, cc, en, cur⟩ := it
  simp only at hen hfc hp
  subst hen hfc hp
  obtain ⟨a, b⟩ := p
  simp only [stateInRange] at h
  have hs := end_sub_start_le c
  by_cases h1 : ((a, b) : Cell) = ((end_value r, end_value c) : Cell)
  · have hg : get_next_neighbor ⟨start_value c, cc, (end_value r, end_value c), some (a, b)⟩ = none := by
      simp [get_next_neighbor, h1]
    rw [hg]
    simp [iterMeasure]
  · have h1' : ¬(a = end_value r ∧ b = end_value c) := fun hh => h1 (Prod.ext_iff.mpr hh)
    by_cases h2 : b = end_value c
    · have hg : get_next_neighbor ⟨start_value c, cc, (end_value r, end_value c), some (a, b)⟩
          = some (a + 1, start_value c) := by
        simp only [get_next_neighbor]
        rw [if_neg h1, if_pos (by simpa using h2)]
      rw [hg]
      simp only [iterMeasure]
      omega
    · have hg : get_next_neighbor ⟨start_value c, cc, (end_value r, end_value c), some (a, b)⟩
          = some (a, b + 1) := by
        simp only [get_next_neighbor]
        rw [if_neg h1, if_neg (by simpa using h2)]
      rw [hg]
      simp only [iterMeasure]
      omega

theorem measure_next_lt (r c : Nat) (it : NeighborIterator)
    (hen : it.end_neighbor = (end_value r, end_value c))
    (hfc : it.first_col = start_value c)
    (h : stateInRange r c it) (p : Cell) (hp : it.current_neighbor = some p) :
    iterMeasure ((it.next).2) < iterMeasure it := by
  have h1 := stateInRange_update r c it hen hfc h
  have hlt1 := measure_update_lt r c it hen hfc h p hp
  simp only [NeighborIterator.next]
  split
  · rename_i hskip
    have hlt2 := measure_update_lt r c { it with current_neighbor := get_next_neighbor it }
      (by simpa using hen) (by simpa using hfc) h1 _ hskip
    exact lt_trans hlt2 hlt1
  · exact hlt1

theorem next_none (it : NeighborIterator) (h : it.current_neighbor = none) :
    it.next = (none, { it with current_neighbor := none }) := by
  have hg : get_next_neighbor it = none := by
    simp [get_next_neighbor, h]
  simp [NeighborIterator.next, h, hg]

theorem collect_of_none (it : NeighborIterator) (h : it.current_neighbor = none) :
    ∀ fuel, collectNeighbors fuel it = [] := by
  intro fuel
  cases fuel with
  | zero => rfl
  | succ f => simp [collectNeighbors, next_none it h]

theorem next_some (it : NeighborIterator) (p : Cell) (h : it.current_neighbor = some p) :
    it.next = (some p, (it.next).2) :=
  Prod.ext_iff.mpr ⟨h, rfl⟩

theorem collect_stable (r c : Nat) : ∀ (fuel : Nat) (it : NeighborIterator),
    it.end_neighbor = (end_value r, end_value c) → it.first_col = start_value c →
    stateInRange r c it → iterMeasure it ≤ fuel →
    collectNeighbors (fuel + 1) it = collectNeighbors fuel it := by
  intro fuel
  induction fuel using Nat.strong_induction_on with
  | _ fuel ih =>
    intro it hen hfc hr hm
    cases hcur : it.current_neighbor with
    | none => rw [collect_of_none it hcur, collect_of_none it hcur]
    | some p =>
      have hm1 : 1 ≤ iterMeasure it := by
        simp only [iterMeasure, hcur]
        omega
      obtain ⟨fuel', rfl⟩ : ∃ f, fuel = f + 1 := ⟨fuel - 1, by omega⟩
      have hnext := next_some it p hcur
      rw [collect_cons hnext fuel', collect_cons hnext (fuel' + 1)]
      congr 1
      have hfields := next_fields it
      exact ih fuel' (by omega) ((it.next).2)
        (by rw [hfields.2.2]; exact hen) (by rw [hfields.1]; exact hfc)
        (stateInRange_next r c it hen hfc hr)
        (by have := measure_next_lt r c it hen hfc hr p hcur; omega)

/-- Fuel adequacy: the fuel bound `10` used by `neighborsList` never cuts a
run short — any larger fuel collects exactly the same list, so the fueled
loop agrees with the source's unbounded iteration. -/
theorem neighborsList_fuel_adequate (cell : Cell) (n : Nat) :
    collectNeighbors (10 + n) (NeighborIterator.new cell) = neighborsList cell := by
  obtain ⟨r, c⟩ := cell
  induction n with
  | zero => rfl
  | succ k ih =>
    rw [← ih]
    have hen : (NeighborIterator.new (r, c)).end_neighbor = (end_value r, end_value c) := rfl
    have hfc : (NeighborIterator.new (r, c)).first_col = start_value c := rfl
    have hm : iterMeasure (NeighborIterator.new (r, c)) ≤ 10 + k := by
      have h1 := end_sub_start_le r
      have h2 := end_sub_start_le c
      simp only [iterMeasure, NeighborIterator.new]
      omega
    show collectNeighbors ((10 + k) + 1) (NeighborIterator.new (r, c)) = _
    exact collect_stable r c (10 + k) (NeighborIterator.new (r, c)) hen hfc
      (iterStates_in_range r c 0) hm

/-!  ## Claim theorems  -/

/-- C1: for every input set `S`, a cell is a member of `compute_next_gen S`
iff either (a) it is a member of `S` and has exactly 2 or 3 neighbors (as
produced by the Neighbor Enumerator for that cell) that are members of `S`,
or (b) it is not a member of `S`, is a neighbor of at least one member of
`S`, and has exactly 3 neighbors that are members of `S`; no other cell is a
member of the output. -/
theorem mem_compute_next_gen_iff (S : Finset Cell) (x : Cell) :
    x ∈ compute_next_gen S ↔
      (x ∈ S ∧ (aliveNeighborCount x S = 2 ∨ aliveNeighborCount x S = 3)) ∨
      (x ∉ S ∧ (∃ y ∈ S, x ∈ neighborsList y) ∧ aliveNeighborCount x S = 3) := by
  unfold compute_next_gen compute_next_gen_order
  rw [mem_foldl_advance]
  simp only [Finset.not_mem_empty, false_or]
  have hmem : ∀ y : Cell, y ∈ sortedCells S.val ↔ y ∈ S := by
    intro y; rw [mem_sortedCells]; exact Finset.mem_val
  constructor
  · rintro ⟨y, hy, hC⟩
    rw [hmem] at hy
    rcases hC with ⟨rfl, h23⟩ | ⟨hn, hxS, h3⟩
    · exact Or.inl ⟨hy, h23⟩
    · exact Or.inr ⟨hxS, ⟨y, hy, hn⟩, h3⟩
  · rintro (⟨hxS, h23⟩ | ⟨hxS, ⟨y, hyS, hn⟩, h3⟩)
    · exact ⟨x, (hmem x).mpr hxS, Or.inl ⟨rfl, h23⟩⟩
    · exact ⟨y, (hmem y).mpr hyS, Or.inr ⟨hn, hxS, h3⟩⟩

/-- C2 (evidence of the code bug): for the cell `(0, 0)` — both coordinates
at the type minimum — the Neighbor Enumerator yields the cell itself as its
first item, contradicting the claim that no yielded item equals the input
cell.  The skip check in `NeighborIterator::next` only inspects the
*successor* of the just-captured neighbor, so the initial neighbor
`(start_value 0, start_value 0) = (0, 0)` is yielded unchecked. -/
theorem neighborsList_origin_contains_center :
    (0, 0) ∈ neighborsList (0, 0) ∧
    neighborsList (0, 0) = [(0, 0), (0, 1), (1, 0), (1, 1)] :=
  ⟨by decide, by decide⟩

/-- C3 (evidence of the code bug): at the both-minimum corner `(0, 0)` the
Neighbor Enumerator yields 4 cells (the center among them), not the 3 the
claim states; at the both-maximum corner it yields 3 as claimed. -/
theorem neighborsList_corner_counts :
    (neighborsList (0, 0)).length = 4 ∧
    (neighborsList (MAXC, MAXC)).length = 3 :=
  ⟨by decide, by decide⟩

/-- C4: for every cell `(r, c)` with both coordinates strictly between the
type minimum `0` and maximum `MAXC`, the Neighbor Enumerator yields exactly
the 8 distinct cells of the rectangle `[r-1, r+1] × [c-1, c+1]` in row-major
order with the center `(r, c)` skipped, none of them equal to `(r, c)`. -/
theorem neighborsList_interior (r c : Nat)
    (hr0 : 0 < r) (hrM : r < MAXC) (hc0 : 0 < c) (hcM : c < MAXC) :
    neighborsList (r, c) =
      [(r-1, c-1), (r-1, c), (r-1, c+1), (r, c-1), (r, c+1),
       (r+1, c-1), (r+1, c), (r+1, c+1)] ∧
    (neighborsList (r, c)).length = 8 ∧
    (neighborsList (r, c)).Nodup ∧
    (r, c) ∉ neighborsList (r, c) := by
  have e1 : r - 1 + 1 = r := by omega
  have e2 : c - 1 + 1 = c := by omega
  have hA : ¬(r - 1 = r + 1) := by omega
  have hB : ¬(r = r + 1) := by omega
  have hC : ¬(c - 1 = c + 1) := by omega
  have hD : ¬(c = c + 1) := by omega
  have hE : ¬(r - 1 = r) := by omega
  have hF : ¬(r + 1 = r) := by omega
  have hG : ¬(c - 1 = c) := by omega
  have hH : ¬(c + 1 = c) := by omega
  have hI : ¬(r = 0) := by omega
  have hJ : ¬(c = 0) := by omega
  have hK : ¬(r = MAXC) := by omega
  have hL : ¬(c = MAXC) := by omega
  have key : neighborsList (r, c) =
      [(r-1, c-1), (r-1, c), (r-1, c+1), (r, c-1), (r, c+1),
       (r+1, c-1), (r+1, c), (r+1, c+1)] := by
    simp only [neighborsList, NeighborIterator.new, collectNeighbors,
      NeighborIterator.next, get_next_neighbor, start_value, end_value,
      e1, e2, hA, hB, hC, hD, hE, hF, hG, hH, hI, hJ, hK, hL,
      Prod.mk.injEq, Option.some.injEq, ne_eq, if_false, if_true,
      and_true, true_and, and_false, false_and, ite_false, ite_true,
      not_false_iff, and_self, reduceCtorEq]
  refine ⟨key, by rw [key]; rfl, ?_, ?_⟩
  · rw [key]
    simp only [List.nodup_cons, List.mem_cons, List.not_mem_nil, or_false,
      Prod.mk.injEq, List.nodup_nil, and_true, true_and, not_or, not_false_iff]
    omega
  · rw [key]
    simp only [List.mem_cons, List.not_mem_nil, or_false, Prod.mk.injEq,
      not_or, true_and, and_true]
    omega

/-- Witness for C4 at the concrete interior cell `(5, 7)`. -/
theorem neighborsList_interior_witness :
    (0 < 5 ∧ 5 < MAXC ∧ 0 < 7 ∧ 7 < MAXC) ∧
    (neighborsList (5, 7) =
      [(4, 6), (4, 7), (4, 8), (5, 6), (5, 8), (6, 6), (6, 7), (6, 8)] ∧
     (neighborsList (5, 7)).length = 8 ∧
     (neighborsList (5, 7)).Nodup ∧
     (5, 7) ∉ neighborsList (5, 7)) :=
  ⟨⟨by decide, by decide, by decide, by decide⟩,
    neighborsList_interior 5 7 (by decide) (by decide) (by decide) (by decide)⟩

/-- C6 (counterexample): for the repository's seed, the fourth generation is
not the seed translated by any diagonal offset of magnitude 1 — the seed is
not a glider (the fourth generation has 12 cells, the seed 7). -/
theorem glider_claim_counterexample :
    compute_next_gen^[4] seed.toFinset ≠
      seed.toFinset.image (fun p => (p.1 + 1, p.2 + 1)) ∧
    compute_next_gen^[4] seed.toFinset ≠
      seed.toFinset.image (fun p => (p.1 + 1, p.2 - 1)) ∧
    compute_next_gen^[4] seed.toFinset ≠
      seed.toFinset.image (fun p => (p.1 - 1, p.2 + 1)) ∧
    compute_next_gen^[4] seed.toFinset ≠
      seed.toFinset.image (fun p => (p.1 - 1, p.2 - 1)) :=
  ⟨by decide, by decide, by decide, by decide⟩

/-- C6 (amended): applying `compute_next_gen` four times to the repository's
seed yields this specific 12-cell set, which is not a translate of the
7-cell seed; the seed is not a glider and has no 4-generation translation
period. -/
theorem seed_fourth_generation :
    compute_next_gen^[4] seed.toFinset =
      ({(0, 2), (0, 3), (0, 4), (1, 1), (1, 5), (2, 0), (2, 6),
        (3, 1), (3, 5), (4, 2), (4, 3), (4, 4)} : Finset Cell) := by
  decide

/-- C7: the three-cell horizontal blinker `{(1,1),(1,2),(1,3)}` advances to
`{(0,2),(1,2),(2,2)}` and back, oscillating with period 2. -/
theorem blinker_period_two :
    compute_next_gen {(1, 1), (1, 2), (1, 3)} = ({(0, 2), (1, 2), (2, 2)} : Finset Cell) ∧
    compute_next_gen (compute_next_gen {(1, 1), (1, 2), (1, 3)}) =
      ({(1, 1), (1, 2), (1, 3)} : Finset Cell) :=
  ⟨by decide, by decide⟩

/-- C8: advancing the empty generation yields the empty generation. -/
theorem compute_next_gen_empty : compute_next_gen (∅ : Finset Cell) = ∅ := rfl

/-- C9: `compute_next_gen` is order-independent: two runs that iterate over
the same input set in different orders produce equal output sets, because
each survival and resurrection decision depends only on membership in the
input set. -/
theorem compute_next_gen_order_independent (S : Finset Cell) (order1 order2 : List Cell)
    (h1 : order1.toFinset = S) (h2 : order2.toFinset = S) :
    compute_next_gen_order S order1 = compute_next_gen_order S order2 := by
  ext x
  unfold compute_next_gen_order
  rw [mem_foldl_advance, mem_foldl_advance]
  apply or_congr Iff.rfl
  apply exists_congr
  intro y
  have hy : y ∈ order1 ↔ y ∈ order2 := by
    rw [← List.mem_toFinset, ← List.mem_toFinset, h1, h2]
  exact and_congr hy Iff.rfl

/-- Witness for C9 at a concrete input: the two-cell set `{(1,1),(1,2)}`
iterated in its two possible orders. -/
theorem compute_next_gen_order_independent_witness :
    ([(1, 1), (1, 2)] : List Cell).toFinset = {(1, 1), (1, 2)} ∧
    ([(1, 2), (1, 1)] : List Cell).toFinset = {(1, 1), (1, 2)} ∧
    compute_next_gen_order {(1, 1), (1, 2)} [(1, 1), (1, 2)] =
      compute_next_gen_order {(1, 1), (1, 2)} [(1, 2), (1, 1)] :=
  ⟨by decide, by decide,
    compute_next_gen_order_independent _ _ _ (by decide) (by decide)⟩

/-- C10: the generation iterator always yields `some`: its `n`-th yielded
item is the `n`-fold advance of generation zero, and generation zero (the
case `n = 0`) is the seed vector collected into a set with duplicates
removed; each subsequent item is `compute_next_gen` of the previous one. -/
theorem generation_iterator_yields (seedL : List Cell) (n : Nat) :
    golYield seedL n = some (compute_next_gen^[n] seedL.toFinset) := by
  have hstate : ∀ m, (golIterStates seedL m).current_gen
      = compute_next_gen^[m] seedL.toFinset := by
    intro m
    induction m with
    | zero => rfl
    | succ k ih =>
      show ((golIterStates seedL k).next).2.current_gen = _
      simp [GOLGenerationIterator.next, ih, Function.iterate_succ_apply']
  show ((golIterStates seedL n).next).1 = _
  simp [GOLGenerationIterator.next, hstate n]

/-- C5: every arithmetic operation performed by the Neighbor Enumerator
stays within the `u64` range: `start_value` computes `val - 1` only when
`val` is not the minimum (else it returns `val`), `end_value` computes
`val + 1` only when `val` is not the maximum (and then the result is still
at most `MAXC`), and every pending neighbor of every reachable iterator
state lies inside the enumeration rectangle, whose end corner is itself at
most `(MAXC, MAXC)` — so no `cur_row + 1` / `cur_col + 1` increment ever
exceeds the rectangle's end corner and no unsigned underflow or overflow
can occur.  (The one neighbor computed but never stored, the skipped center
`(r, c)`, trivially satisfies the same bounds.) -/
theorem neighbor_enumerator_arith_safe (r c n : Nat) (hr : r ≤ MAXC) (hc : c ≤ MAXC) :
    stateInRange r c (iterStates (r, c) n) ∧
    end_value r ≤ MAXC ∧ end_value c ≤ MAXC ∧
    (r ≠ 0 → start_value r = r - 1) ∧ (r = 0 → start_value r = r) ∧
    (c ≠ 0 → start_value c = c - 1) ∧ (c = 0 → start_value c = c) ∧
    (r ≠ MAXC → end_value r = r + 1 ∧ r + 1 ≤ MAXC) ∧
    (c ≠ MAXC → end_value c = c + 1 ∧ c + 1 ≤ MAXC) := by
  refine ⟨iterStates_in_range r c n, end_value_le_max hr, end_value_le_max hc,
    ?_, ?_, ?_, ?_, ?_, ?_⟩
  · intro h; exact start_value_of_pos (by omega)
  · intro h; simp [start_value, h]
  · intro h; exact start_value_of_pos (by omega)
  · intro h; simp [start_value, h]
  · intro h; exact ⟨end_value_of_lt (by omega), by omega⟩
  · intro h; exact ⟨end_value_of_lt (by omega), by omega⟩

/-- Witness for C5 at the concrete input `r = 5`, `c = 7`, `n = 2`. -/
theorem neighbor_enumerator_arith_safe_witness :
    (5 ≤ MAXC ∧ 7 ≤ MAXC) ∧
    (stateInRange 5 7 (iterStates (5, 7) 2) ∧
     end_value 5 ≤ MAXC ∧ end_value 7 ≤ MAXC ∧
     (5 ≠ 0 → start_value 5 = 5 - 1) ∧ (5 = 0 → start_value 5 = 5) ∧
     (7 ≠ 0 → start_value 7 = 7 - 1) ∧ (7 = 0 → start_value 7 = 7) ∧
     (5 ≠ MAXC → end_value 5 = 5 + 1 ∧ 5 + 1 ≤ MAXC) ∧
     (7 ≠ MAXC → end_value 7 = 7 + 1 ∧ 7 + 1 ≤ MAXC)) :=
  ⟨⟨by decide, by decide⟩, neighbor_enumerator_arith_safe 5 7 2 (by decide) (by decide)⟩

end ConwayGOL
